import Mathlib

/-!
Verification of the extraction-and-chunking pipeline of the quiz-generator
repository (`document_processor.py`, with `pdf_processor.py` an identical
legacy copy of the chunking functions).

The pipeline is embedded shallowly:

* The subword tokenizer (tiktoken, an external library) is represented by an
  abstract `Codec`: an `encode` function from strings to token-id lists and a
  per-token decoded string `tokStr`; `decode` concatenates per-token strings,
  which is how tiktoken's byte-level decoding behaves.  Theorems that need
  tokenizer facts (round-trip stability, empty encoding) take them as explicit
  hypotheses; `charCodec` is a concrete codec (one character = one token) used
  to evaluate the definitions on concrete inputs.
* Python `str.strip()` is modelled by `pyStrip` (drop whitespace characters
  from both ends).
* File extraction (`extract_text_from_file`) performs I/O through third-party
  parsers and is outside the embedding; the pipeline functions take the
  extracted page list directly, exactly as the Python functions receive it.
* The `while` loop of `chunk_text` is not structurally terminating for every
  configuration (with `overlap_tokens >= max_tokens` the Python loop never
  advances), so it is embedded with a fuel parameter sufficient for every
  terminating run; `none` models divergence of the source loop.
-/

/-- A page record `{"page": ..., "text": ...}` as produced by extraction. -/
structure Page where
  page : Nat
  text : String
deriving DecidableEq, Repr, Inhabited

/-- The `TextChunk` dataclass of `document_processor.py`. -/
structure TextChunk where
  text : String
  source_pages : List Nat
  token_count : Nat
  source_document : String := ""
deriving DecidableEq, Repr, Inhabited

/-- Abstract subword tokenizer (the tiktoken encoder `_encoder`).
`tokStr` gives the decoded text of a single token id. -/
structure Codec where
  encode : String → List Nat
  tokStr : Nat → String

/-- `_encoder.decode`: concatenation of the per-token decoded strings
(tiktoken decodes a token list by concatenating per-token byte strings). -/
def Codec.decode (c : Codec) : List Nat → String
  | [] => ""
  | t :: rest => c.tokStr t ++ Codec.decode c rest

/-- `count_tokens` from `llm_service.py`: `len(_encoder.encode(text))`. -/
def count_tokens (c : Codec) (text : String) : Nat :=
  (c.encode text).length

/-- Python `str.strip()`: remove whitespace from both ends of the string. -/
def pyStrip (s : String) : String :=
  String.mk (((s.data.dropWhile Char.isWhitespace).reverse.dropWhile
    Char.isWhitespace).reverse)

/-- A concrete codec for evaluating the pipeline: one character is one token
(the token id is the character's code point). -/
def charCodec : Codec where
  encode s := s.data.map Char.toNat
  tokStr n := String.singleton (Char.ofNat n)

/-- The page header marker of `chunk_text`:
`f"\n\n[Début Page {page}]\n"`. -/
def pageHeader (n : Nat) : String :=
  "\n\n[Début Page " ++ toString n ++ "]\n"

/-- The page footer marker of `chunk_text`: `f"\n[Fin Page {page}]"`. -/
def pageFooter (n : Nat) : String :=
  "\n[Fin Page " ++ toString n ++ "]"

/-- A recorded page character span `(start_idx, end_idx, page_num)`. -/
structure PageSpan where
  start : Nat
  stop : Nat
  page : Nat
deriving DecidableEq, Repr

/-- The concatenation loop of `chunk_text` (lines 335–348 of
`document_processor.py`): starting from the accumulated `full_text`, append
`header + page text + footer` for each page and record its character span. -/
def buildFullText : List Page → String → String × List PageSpan
  | [], acc => (acc, [])
  | pd :: rest, acc =>
    let pc := pageHeader pd.page ++ pd.text ++ pageFooter pd.page
    let r := buildFullText rest (acc ++ pc)
    (r.1, ⟨acc.length, (acc ++ pc).length, pd.page⟩ :: r.2)

/-- The full concatenated text of a pages list (initial `full_text = ""`). -/
def fullTextOf (pages : List Page) : String :=
  (buildFullText pages "").1

/-- The recorded page spans of a pages list. -/
def spansOf (pages : List Page) : List PageSpan :=
  (buildFullText pages "").2

/-- The token sequence of the full concatenated text. -/
def tokensOf (c : Codec) (pages : List Page) : List Nat :=
  c.encode (fullTextOf pages)

/-- The token slice `tokens[s:e]` (for `s ≤ e ≤ len`). -/
def tokSlice (tokens : List Nat) (s e : Nat) : List Nat :=
  (tokens.drop s).take (e - s)

/-- The page-attribution loop of `chunk_text` (lines 368–372): collect, in
first-seen order and without duplicates, the page numbers whose span strictly
overlaps the chunk's character span `[cs, ce)`. -/
def sourcePagesFor (spans : List PageSpan) (cs ce : Nat) : List Nat :=
  spans.foldl (fun acc sp =>
    if max cs sp.start < min ce sp.stop then
      if sp.page ∈ acc then acc else acc ++ [sp.page]
    else acc) []

/-- The body of one iteration of the `chunk_text` window loop (lines
360–378): decode the token window `[w.1, w.2)`, compute the chunk's character
span from the decoded prefix, attribute pages, and build the `TextChunk`. -/
def windowChunk (c : Codec) (tokens : List Nat) (spans : List PageSpan)
    (w : Nat × Nat) : TextChunk :=
  let chunkToks := tokSlice tokens w.1 w.2
  let chunkStr := c.decode chunkToks
  let cs := (c.decode (tokens.take w.1)).length
  let ce := cs + chunkStr.length
  { text := pyStrip chunkStr
    source_pages := sourcePagesFor spans cs ce
    token_count := chunkToks.length
    source_document := "" }

/-- The window `while` loop of `chunk_text` (lines 359–382), with a fuel
parameter: `none` models a run of the Python loop that never terminates.
Each iteration at `start_token = st < total` takes the window
`[st, min (st + max_tokens) total)`, emits its chunk, and either stops (window
reached the end) or continues at `end_token - overlap_tokens`. -/
def chunkLoop (c : Codec) (tokens : List Nat) (spans : List PageSpan)
    (maxT ovl : Nat) : Nat → Nat → Option (List TextChunk)
  | 0, st => if st < tokens.length then none else some []
  | fuel + 1, st =>
    if st < tokens.length then
      let e := min (st + maxT) tokens.length
      if tokens.length ≤ e then some [windowChunk c tokens spans (st, e)]
      else Option.map (fun l => windowChunk c tokens spans (st, e) :: l)
        (chunkLoop c tokens spans maxT ovl fuel (e - ovl))
    else some []

/-- The window-offset arithmetic of the same loop, separated from chunk
construction: the list of `(start_token, end_token)` windows it visits. -/
def windowsLoop (total maxT ovl : Nat) : Nat → Nat → Option (List (Nat × Nat))
  | 0, st => if st < total then none else some []
  | fuel + 1, st =>
    if st < total then
      let e := min (st + maxT) total
      if total ≤ e then some [(st, e)]
      else Option.map (fun ws => (st, e) :: ws)
        (windowsLoop total maxT ovl fuel (e - ovl))
    else some []

/-- `chunk_text` (lines 327–384 of `document_processor.py`): concatenate the
pages with markers, encode once, and cut overlapping token windows.  The fuel
`tokens.length` suffices for every terminating run of the Python loop, since
a continuing iteration advances `start_token` by at least one. -/
def chunk_text (c : Codec) (pages : List Page) (max_tokens overlap_tokens : Nat) :
    Option (List TextChunk) :=
  let fp := buildFullText pages ""
  let tokens := c.encode fp.1
  if tokens.length = 0 then some []
  else chunkLoop c tokens fp.2 max_tokens overlap_tokens tokens.length 0

/-- `split_into_pages` (lines 387–400): one chunk per page whose stripped
text is non-empty, in page order. -/
def split_into_pages (c : Codec) : List Page → List TextChunk
  | [] => []
  | pd :: rest =>
    let tc := pyStrip pd.text
    if tc = "" then split_into_pages c rest
    else { text := tc, source_pages := [pd.page],
           token_count := count_tokens c tc,
           source_document := "" } :: split_into_pages c rest

/-- Result of `extract_and_chunk`: a chunk list, a raised
`ValueError` (unknown mode), or divergence of the token-window loop. -/
inductive ChunkResult where
  | ok (chunks : List TextChunk)
  | modeError (msg : String)
  | diverges
deriving DecidableEq, Repr

/-- `extract_and_chunk` (lines 403–424), taking the extracted pages directly
(extraction itself is third-party I/O outside the embedding): empty
extraction returns `[]` before any mode dispatch; `"page"` and `"token"`
dispatch to the two chunkers; any other mode raises
`ValueError(f"Mode inconnu : {mode}")`. -/
def extract_and_chunk (c : Codec) (pages : List Page) (mode : String)
    (max_tokens overlap_tokens : Nat) : ChunkResult :=
  if pages = [] then .ok []
  else if mode = "page" then .ok (split_into_pages c pages)
  else if mode = "token" then
    match chunk_text c pages max_tokens overlap_tokens with
    | some l => .ok l
    | none => .diverges
  else .modeError ("Mode inconnu : " ++ mode)

/-- `get_full_text` (lines 427–429): `"\n\n".join(p["text"] for p in pages)`. -/
def get_full_text (pages : List Page) : String :=
  String.intercalate "\n\n" (pages.map Page.text)

/-- The statistics record of `get_text_stats`. -/
structure DocStats where
  num_pages : Nat
  total_chars : Nat
  total_tokens : Nat
  avg_tokens_per_page : Nat
deriving DecidableEq, Repr

/-- A per-document statistics record with the `"name"` key added by
`get_text_stats_multiple`. -/
structure NamedDocStats where
  stats : DocStats
  name : String
deriving DecidableEq, Repr

/-- The aggregate statistics record of `get_text_stats_multiple`. -/
structure MultiDocStats where
  num_pages : Nat
  total_chars : Nat
  total_tokens : Nat
  avg_tokens_per_page : Nat
  num_documents : Nat
  per_document : List NamedDocStats
deriving DecidableEq, Repr

/-- `get_text_stats` (lines 432–442), on the extracted pages. -/
def get_text_stats (c : Codec) (pages : List Page) : DocStats :=
  let full_text := get_full_text pages
  let total_tokens := count_tokens c full_text
  { num_pages := pages.length
    total_chars := full_text.length
    total_tokens := total_tokens
    avg_tokens_per_page := total_tokens / max pages.length 1 }

/-- The accumulation loop of `get_text_stats_multiple` (lines 452–460):
running sums of `num_pages`, `total_chars`, `total_tokens` over the files. -/
def statsTotals (c : Codec) : List (String × List Page) → Nat × Nat × Nat
  | [] => (0, 0, 0)
  | d :: rest =>
    let s := get_text_stats c d.2
    let r := statsTotals c rest
    (s.num_pages + r.1, s.total_chars + r.2.1, s.total_tokens + r.2.2)

/-- `get_text_stats_multiple` (lines 445–469), with a file modelled as its
name together with its extracted pages. -/
def get_text_stats_multiple (c : Codec) (docs : List (String × List Page)) :
    MultiDocStats :=
  let t := statsTotals c docs
  { num_pages := t.1
    total_chars := t.2.1
    total_tokens := t.2.2
    avg_tokens_per_page := t.2.2 / max t.1 1
    num_documents := docs.length
    per_document := docs.map (fun d => ⟨get_text_stats c d.2, d.1⟩) }

/-- `extract_and_chunk_multiple` (lines 472–491): run `extract_and_chunk` per
file in order, set each resulting chunk's `source_document` to the file's
name, and concatenate; an error on a file propagates (the Python loop raises
before touching the remaining files). -/
def extract_and_chunk_multiple (c : Codec) :
    List (String × List Page) → String → Nat → Nat → ChunkResult
  | [], _, _, _ => .ok []
  | d :: rest, mode, maxT, ovl =>
    match extract_and_chunk c d.2 mode maxT ovl with
    | .ok chunks =>
      match extract_and_chunk_multiple c rest mode maxT ovl with
      | .ok restChunks =>
        .ok (chunks.map (fun ch => { ch with source_document := d.1 }) ++ restChunks)
      | .modeError m => .modeError m
      | .diverges => .diverges
    | .modeError m => .modeError m
    | .diverges => .diverges

/-- The chunk list of an `ok` result (empty otherwise). -/
def okChunks : ChunkResult → List TextChunk
  | .ok l => l
  | _ => []

/-- First-seen-order deduplication of a list of page numbers. -/
def firstSeenDedup (l : List Nat) : List Nat :=
  l.foldl (fun acc x => if x ∈ acc then acc else acc ++ [x]) []

/-! ### Basic facts about the codec and `pyStrip` -/

lemma Codec.decode_append (c : Codec) (a b : List Nat) :
    c.decode (a ++ b) = c.decode a ++ c.decode b := by
  induction a with
  | nil => simp [Codec.decode]
  | cons t rest ih => simp [Codec.decode, ih, String.append_assoc]

lemma Codec.decode_nil (c : Codec) : c.decode [] = "" := rfl

lemma pyStrip_data (s : String) :
    (pyStrip s).data =
      List.rdropWhile Char.isWhitespace (s.data.dropWhile Char.isWhitespace) := rfl

lemma pyStrip_idem (s : String) : pyStrip (pyStrip s) = pyStrip s := by
  apply String.ext
  rw [pyStrip_data, pyStrip_data s]
  have h1 : ∀ (d : List Char),
      List.dropWhile Char.isWhitespace
        (List.rdropWhile Char.isWhitespace (List.dropWhile Char.isWhitespace d)) =
        List.rdropWhile Char.isWhitespace (List.dropWhile Char.isWhitespace d) := by
    intro d
    rw [List.dropWhile_eq_self_iff]
    intro hl
    have hpre := List.rdropWhile_prefix Char.isWhitespace
      (l := List.dropWhile Char.isWhitespace d)
    have h0 : 0 < (List.dropWhile Char.isWhitespace d).length :=
      lt_of_lt_of_le hl hpre.length_le
    have hnot := List.dropWhile_get_zero_not Char.isWhitespace d h0
    have hget := hpre.getElem (n := 0) hl
    simp only [List.get_eq_getElem] at hnot ⊢
    rw [hget]
    exact hnot
  rw [h1, List.rdropWhile_idempotent]

/-! ### Page-aligned chunking -/

lemma split_into_pages_eq (c : Codec) (pages : List Page) :
    split_into_pages c pages =
      (pages.filter (fun pd => pyStrip pd.text ≠ "")).map
        (fun pd => { text := pyStrip pd.text
                     source_pages := [pd.page]
                     token_count := count_tokens c (pyStrip pd.text)
                     source_document := "" }) := by
  induction pages with
  | nil => rfl
  | cons pd rest ih =>
    by_cases h : pyStrip pd.text = ""
    · simp [split_into_pages, h, List.filter_cons, ih]
    · simp [split_into_pages, h, List.filter_cons, ih]

lemma split_into_pages_invariant (c : Codec) (pages : List Page) :
    ∀ ch ∈ split_into_pages c pages,
      pyStrip ch.text = ch.text ∧ ch.text ≠ "" ∧
        ch.token_count = count_tokens c ch.text := by
  intro ch hch
  rw [split_into_pages_eq] at hch
  obtain ⟨pd, hpd, rfl⟩ := List.mem_map.mp hch
  have hne : pyStrip pd.text ≠ "" := by
    have := List.of_mem_filter hpd
    simpa using this
  exact ⟨pyStrip_idem pd.text, hne, rfl⟩

/-! ### The window loop -/

lemma chunkLoop_eq_windowsLoop (c : Codec) (tokens : List Nat)
    (spans : List PageSpan) (maxT ovl : Nat) :
    ∀ fuel st, chunkLoop c tokens spans maxT ovl fuel st =
      Option.map (List.map (windowChunk c tokens spans))
        (windowsLoop tokens.length maxT ovl fuel st) := by
  intro fuel
  induction fuel with
  | zero =>
    intro st
    by_cases h : st < tokens.length <;> simp [chunkLoop, windowsLoop, h]
  | succ fuel ih =>
    intro st
    by_cases h : st < tokens.length
    · by_cases he : tokens.length ≤ min (st + maxT) tokens.length
      · simp [chunkLoop, windowsLoop, h, he]
      · simp only [chunkLoop, windowsLoop, if_pos h, if_neg he, ih,
          Option.map_map]
        rfl
    · simp [chunkLoop, windowsLoop, h]

lemma chunk_text_eq_windows (c : Codec) (pages : List Page) (maxT ovl : Nat) :
    chunk_text c pages maxT ovl =
      Option.map (List.map (windowChunk c (tokensOf c pages) (spansOf pages)))
        (windowsLoop (tokensOf c pages).length maxT ovl
          (tokensOf c pages).length 0) := by
  show (if (tokensOf c pages).length = 0 then some [] else _) = _
  by_cases h : (tokensOf c pages).length = 0
  · have : ¬ (0 < (tokensOf c pages).length) := by omega
    simp [h, windowsLoop, this]
  · rw [if_neg h, chunkLoop_eq_windowsLoop]
    rfl

lemma windowsLoop_mem (total maxT ovl : Nat) (hmax : 0 < maxT) :
    ∀ fuel st ws, windowsLoop total maxT ovl fuel st = some ws →
      ∀ w ∈ ws, w.1 < w.2 ∧ w.2 ≤ total ∧ w.2 - w.1 ≤ maxT := by
  intro fuel
  induction fuel with
  | zero =>
    intro st ws h w hw
    by_cases hst : st < total <;> simp [windowsLoop, hst] at h
    subst h; simp at hw
  | succ fuel ih =>
    intro st ws h w hw
    by_cases hst : st < total
    · by_cases he : total ≤ min (st + maxT) total
      · simp [windowsLoop, hst, he] at h
        subst h
        simp at hw
        subst hw
        refine ⟨?_, ?_, ?_⟩ <;> omega
      · simp only [windowsLoop, if_pos hst, if_neg he, Option.map_eq_some'] at h
        obtain ⟨ws', hws', rfl⟩ := h
        rcases List.mem_cons.mp hw with hw | hw
        · subst hw
          have : min (st + maxT) total = st + maxT := by omega
          refine ⟨?_, ?_, ?_⟩ <;> omega
        · exact ih _ _ hws' w hw
    · simp [windowsLoop, hst] at h
      subst h; simp at hw

lemma windowsLoop_head (total maxT ovl : Nat) :
    ∀ fuel st ws, windowsLoop total maxT ovl fuel st = some ws →
      st < total → ∃ e, ws.head? = some (st, e) := by
  intro fuel st ws h hst
  cases fuel with
  | zero => simp [windowsLoop, hst] at h
  | succ fuel =>
    by_cases he : total ≤ min (st + maxT) total
    · simp [windowsLoop, hst, he] at h
      subst h; exact ⟨_, rfl⟩
    · simp only [windowsLoop, if_pos hst, if_neg he, Option.map_eq_some'] at h
      obtain ⟨ws', _, rfl⟩ := h
      exact ⟨_, rfl⟩

lemma windowsLoop_chain (total maxT ovl : Nat) :
    ∀ fuel st ws, windowsLoop total maxT ovl fuel st = some ws →
      List.Chain' (fun a b => a.2 = a.1 + maxT ∧ a.2 < total ∧ b.1 = a.2 - ovl) ws := by
  intro fuel
  induction fuel with
  | zero =>
    intro st ws h
    by_cases hst : st < total <;> simp [windowsLoop, hst] at h
    subst h; simp
  | succ fuel ih =>
    intro st ws h
    by_cases hst : st < total
    · by_cases he : total ≤ min (st + maxT) total
      · simp [windowsLoop, hst, he] at h
        subst h; simp
      · simp only [windowsLoop, if_pos hst, if_neg he, Option.map_eq_some'] at h
        obtain ⟨ws', hws', rfl⟩ := h
        have hchain := ih _ _ hws'
        have hst' : min (st + maxT) total - ovl < total := by omega
        obtain ⟨e', hhead⟩ := windowsLoop_head total maxT ovl fuel _ _ hws' hst'
        refine List.chain'_cons'.mpr ⟨?_, hchain⟩
        intro y hy
        rw [hhead] at hy
        cases hy
        have hmin : min (st + maxT) total = st + maxT := by omega
        exact ⟨by omega, by omega, by omega⟩
    · simp [windowsLoop, hst] at h
      subst h; simp

lemma windowsLoop_last (total maxT ovl : Nat) :
    ∀ fuel st ws, windowsLoop total maxT ovl fuel st = some ws →
      ∀ hne : ws ≠ [], (ws.getLast hne).2 = total := by
  intro fuel
  induction fuel with
  | zero =>
    intro st ws h hne
    by_cases hst : st < total <;> simp [windowsLoop, hst] at h
    subst h; simp at hne
  | succ fuel ih =>
    intro st ws h hne
    by_cases hst : st < total
    · by_cases he : total ≤ min (st + maxT) total
      · simp [windowsLoop, hst, he] at h
        subst h
        simp [List.getLast]
        omega
      · simp only [windowsLoop, if_pos hst, if_neg he, Option.map_eq_some'] at h
        obtain ⟨ws', hws', rfl⟩ := h
        have hst' : min (st + maxT) total - ovl < total := by omega
        obtain ⟨e', hhead⟩ := windowsLoop_head total maxT ovl fuel _ _ hws' hst'
        have hne' : ws' ≠ [] := by
          intro hnil
          rw [hnil] at hhead
          simp at hhead
        rw [List.getLast_cons hne']
        exact ih _ _ hws' hne'
    · simp [windowsLoop, hst] at h
      subst h; simp at hne

lemma windowsLoop_isSome (total maxT ovl : Nat) (hov : ovl < maxT) :
    ∀ fuel st, total ≤ st + fuel → (windowsLoop total maxT ovl fuel st).isSome := by
  intro fuel
  induction fuel with
  | zero =>
    intro st hle
    have hst : ¬ st < total := by omega
    simp [windowsLoop, hst]
  | succ fuel ih =>
    intro st hle
    by_cases hst : st < total
    · by_cases he : total ≤ min (st + maxT) total
      · simp [windowsLoop, hst, he]
      · simp only [windowsLoop, if_pos hst, if_neg he]
        have := ih (min (st + maxT) total - ovl) (by omega)
        simpa using this
    · simp [windowsLoop, hst]

lemma windowsLoop_none_of_no_advance (total maxT ovl : Nat) (hov : maxT ≤ ovl)
    (hlt : maxT < total) :
    ∀ fuel, windowsLoop total maxT ovl fuel 0 = none := by
  intro fuel
  induction fuel with
  | zero =>
    have hst : (0 : Nat) < total := by omega
    simp [windowsLoop, hst]
  | succ fuel ih =>
    have hst : (0 : Nat) < total := by omega
    have he : ¬ total ≤ min (0 + maxT) total := by omega
    have hstep : min (0 + maxT) total - ovl = 0 := by omega
    simp only [windowsLoop, if_pos hst, if_neg he, hstep, ih, Option.map_none']

/-! ### Page attribution -/

lemma sourcePages_foldl_mem (cs ce : Nat) :
    ∀ (spans : List PageSpan) (acc : List Nat) (p : Nat),
      (p ∈ spans.foldl (fun acc sp =>
        if max cs sp.start < min ce sp.stop then
          if sp.page ∈ acc then acc else acc ++ [sp.page]
        else acc) acc ↔
      p ∈ acc ∨ ∃ sp ∈ spans, sp.page = p ∧ max cs sp.start < min ce sp.stop) := by
  intro spans
  induction spans with
  | nil => simp
  | cons sp rest ih =>
    intro acc p
    simp only [List.foldl_cons, List.mem_cons]
    by_cases hc : max cs sp.start < min ce sp.stop
    · by_cases hp : sp.page ∈ acc
      · rw [if_pos hc, if_pos hp, ih]
        constructor
        · rintro (h | ⟨sp', hsp', hx⟩)
          · exact Or.inl h
          · exact Or.inr ⟨sp', Or.inr hsp', hx⟩
        · rintro (h | ⟨sp', hsp', hpage, hov⟩)
          · exact Or.inl h
          · rcases hsp' with rfl | hsp'
            · exact Or.inl (hpage ▸ hp)
            · exact Or.inr ⟨sp', hsp', hpage, hov⟩
      · rw [if_pos hc, if_neg hp, ih]
        simp only [List.mem_append, List.mem_singleton]
        constructor
        · rintro ((h | h) | h)
          · exact Or.inl h
          · exact Or.inr ⟨sp, by simp, h.symm, hc⟩
          · obtain ⟨sp', hsp', hrest⟩ := h
            exact Or.inr ⟨sp', by simp [hsp'], hrest⟩
        · rintro (h | ⟨sp', hsp', hpage, hov⟩)
          · exact Or.inl (Or.inl h)
          · rcases hsp' with rfl | hsp'
            · exact Or.inl (Or.inr hpage.symm)
            · exact Or.inr ⟨sp', hsp', hpage, hov⟩
    · rw [if_neg hc, ih]
      constructor
      · rintro (h | ⟨sp', hsp', hrest⟩)
        · exact Or.inl h
        · exact Or.inr ⟨sp', by simp [hsp'], hrest⟩
      · rintro (h | ⟨sp', hsp', hpage, hov⟩)
        · exact Or.inl h
        · rcases hsp' with rfl | hsp'
          · exact absurd hov hc
          · exact Or.inr ⟨sp', hsp', hpage, hov⟩

lemma sourcePages_foldl_nodup (cs ce : Nat) :
    ∀ (spans : List PageSpan) (acc : List Nat), acc.Nodup →
      (spans.foldl (fun acc sp =>
        if max cs sp.start < min ce sp.stop then
          if sp.page ∈ acc then acc else acc ++ [sp.page]
        else acc) acc).Nodup := by
  intro spans
  induction spans with
  | nil => intro acc h; exact h
  | cons sp rest ih =>
    intro acc hacc
    simp only [List.foldl_cons]
    by_cases hc : max cs sp.start < min ce sp.stop
    · by_cases hp : sp.page ∈ acc
      · rw [if_pos hc, if_pos hp]; exact ih acc hacc
      · rw [if_pos hc, if_neg hp]
        refine ih _ ?_
        simp [List.nodup_append, hacc, hp]
    · rw [if_neg hc]; exact ih acc hacc

lemma sourcePages_foldl_firstSeen (cs ce : Nat) :
    ∀ (spans : List PageSpan) (acc : List Nat),
      spans.foldl (fun acc sp =>
        if max cs sp.start < min ce sp.stop then
          if sp.page ∈ acc then acc else acc ++ [sp.page]
        else acc) acc =
      ((spans.filter (fun sp => max cs sp.start < min ce sp.stop)).map
        PageSpan.page).foldl
          (fun acc x => if x ∈ acc then acc else acc ++ [x]) acc := by
  intro spans
  induction spans with
  | nil => intro acc; rfl
  | cons sp rest ih =>
    intro acc
    by_cases hc : max cs sp.start < min ce sp.stop
    · simp only [List.foldl_cons, List.filter_cons, if_pos hc]
      rw [ih]
      simp [hc]
    · simp only [List.foldl_cons, List.filter_cons, if_neg hc]
      rw [ih]
      simp [hc]

lemma sourcePagesFor_mem (spans : List PageSpan) (cs ce p : Nat) :
    p ∈ sourcePagesFor spans cs ce ↔
      ∃ sp ∈ spans, sp.page = p ∧ max cs sp.start < min ce sp.stop := by
  rw [sourcePagesFor, sourcePages_foldl_mem]
  simp

lemma sourcePagesFor_nodup (spans : List PageSpan) (cs ce : Nat) :
    (sourcePagesFor spans cs ce).Nodup :=
  sourcePages_foldl_nodup cs ce spans [] List.nodup_nil

lemma sourcePagesFor_firstSeen (spans : List PageSpan) (cs ce : Nat) :
    sourcePagesFor spans cs ce =
      firstSeenDedup ((spans.filter
        (fun sp => max cs sp.start < min ce sp.stop)).map PageSpan.page) :=
  sourcePages_foldl_firstSeen cs ce spans []

/-! ### Facts about a single window's chunk -/

lemma windowChunk_token_count (c : Codec) (tokens : List Nat)
    (spans : List PageSpan) (w : Nat × Nat) (h2 : w.2 ≤ tokens.length) :
    (windowChunk c tokens spans w).token_count = w.2 - w.1 := by
  simp only [windowChunk, tokSlice, List.length_take, List.length_drop]
  omega

/-! ### The concatenated text and its page spans -/

lemma pageHeader_length_pos (n : Nat) : 0 < (pageHeader n).length := by
  rw [pageHeader, String.length_append, String.length_append]
  have h : ("\n\n[Début Page " : String).length = 14 := by decide
  omega

lemma buildFullText_grows :
    ∀ (ps : List Page) (acc : String), acc.length ≤ (buildFullText ps acc).1.length := by
  intro ps
  induction ps with
  | nil => intro acc; exact Nat.le_refl _
  | cons pd rest ih =>
    intro acc
    have h := ih (acc ++ (pageHeader pd.page ++ pd.text ++ pageFooter pd.page))
    rw [String.length_append] at h
    exact le_trans (Nat.le_add_right _ _) h

lemma fullTextOf_ne_empty (pages : List Page) (h : pages ≠ []) :
    fullTextOf pages ≠ "" := by
  cases pages with
  | nil => exact absurd rfl h
  | cons pd rest =>
    intro hempty
    have hlen : (fullTextOf (pd :: rest)).length = 0 := by rw [hempty]; rfl
    have hgrow := buildFullText_grows rest
      ("" ++ (pageHeader pd.page ++ pd.text ++ pageFooter pd.page))
    have hhd := pageHeader_length_pos pd.page
    rw [String.length_append, String.length_append, String.length_append] at hgrow
    have : (fullTextOf (pd :: rest)).length =
        (buildFullText rest
          ("" ++ (pageHeader pd.page ++ pd.text ++ pageFooter pd.page))).1.length := rfl
    omega

lemma spansOf_cover :
    ∀ (ps : List Page) (acc : String) (pd : Page), pd ∈ ps →
      ∃ sp ∈ (buildFullText ps acc).2, sp.page = pd.page ∧
        acc.length ≤ sp.start ∧ sp.start < sp.stop ∧
        sp.stop ≤ (buildFullText ps acc).1.length := by
  intro ps
  induction ps with
  | nil => intro acc pd h; simp at h
  | cons q rest ih =>
    intro acc pd h
    rcases List.mem_cons.mp h with rfl | h
    · refine ⟨⟨acc.length,
        (acc ++ (pageHeader pd.page ++ pd.text ++ pageFooter pd.page)).length,
        pd.page⟩, by simp [buildFullText], rfl, Nat.le_refl _, ?_, ?_⟩
      · show acc.length <
          (acc ++ (pageHeader pd.page ++ pd.text ++ pageFooter pd.page)).length
        rw [String.length_append, String.length_append, String.length_append]
        have := pageHeader_length_pos pd.page
        omega
      · exact buildFullText_grows rest _
    · obtain ⟨sp, hsp, hpage, hacc, hlt, hstop⟩ :=
        ih (acc ++ (pageHeader q.page ++ q.text ++ pageFooter q.page)) pd h
      refine ⟨sp, by simp [buildFullText, hsp], hpage, ?_, hlt, hstop⟩
      rw [String.length_append] at hacc
      omega

/-! ### Character offsets of windows -/

lemma decode_take_split (c : Codec) (tokens : List Nat) {s e : Nat} (h : s ≤ e) :
    c.decode (tokens.take e) =
      c.decode (tokens.take s) ++ c.decode (tokSlice tokens s e) := by
  rw [tokSlice, ← Codec.decode_append, ← List.take_add,
    Nat.add_sub_cancel' h]

lemma decode_take_mono (c : Codec) (tokens : List Nat) {s t : Nat} (h : s ≤ t) :
    (c.decode (tokens.take s)).length ≤ (c.decode (tokens.take t)).length := by
  rw [decode_take_split c tokens h, String.length_append]
  omega

lemma windowsLoop_coverage (c : Codec) (tokens : List Nat) (maxT ovl : Nat) :
    ∀ fuel st ws, windowsLoop tokens.length maxT ovl fuel st = some ws →
      st < tokens.length →
      ∀ x, (c.decode (tokens.take st)).length ≤ x →
        x < (c.decode (tokens.take tokens.length)).length →
        ∃ w ∈ ws, (c.decode (tokens.take w.1)).length ≤ x ∧
          x < (c.decode (tokens.take w.2)).length := by
  intro fuel
  induction fuel with
  | zero =>
    intro st ws h hst
    simp [windowsLoop, hst] at h
  | succ fuel ih =>
    intro st ws h hst x hx1 hx2
    by_cases he : tokens.length ≤ min (st + maxT) tokens.length
    · simp [windowsLoop, hst, he] at h
      subst h
      have heq : min (st + maxT) tokens.length = tokens.length := by omega
      exact ⟨(st, min (st + maxT) tokens.length), by simp, hx1, by rw [heq]; exact hx2⟩
    · simp only [windowsLoop, if_pos hst, if_neg he, Option.map_eq_some'] at h
      obtain ⟨ws', hws', rfl⟩ := h
      by_cases hxe : x < (c.decode (tokens.take (min (st + maxT) tokens.length))).length
      · exact ⟨(st, min (st + maxT) tokens.length), by simp, hx1, hxe⟩
      · push_neg at hxe
        have hst' : min (st + maxT) tokens.length - ovl < tokens.length := by omega
        have hmono : (c.decode (tokens.take (min (st + maxT) tokens.length - ovl))).length ≤
            (c.decode (tokens.take (min (st + maxT) tokens.length))).length :=
          decode_take_mono c tokens (by omega)
        obtain ⟨w, hw, hw1, hw2⟩ := ih _ _ hws' hst' x (le_trans hmono hxe) hx2
        exact ⟨w, by simp [hw], hw1, hw2⟩

lemma chunk_text_isSome (c : Codec) (pages : List Page) (maxT ovl : Nat)
    (hov : ovl < maxT) : (chunk_text c pages maxT ovl).isSome := by
  rw [chunk_text_eq_windows]
  have := windowsLoop_isSome (tokensOf c pages).length maxT ovl hov
    (tokensOf c pages).length 0 (by omega)
  simpa using this

lemma windowsLoop_mem_shape (total maxT ovl : Nat) :
    ∀ fuel st ws, windowsLoop total maxT ovl fuel st = some ws →
      ∀ w ∈ ws, w.2 = min (w.1 + maxT) total := by
  intro fuel
  induction fuel with
  | zero =>
    intro st ws h w hw
    by_cases hst : st < total <;> simp [windowsLoop, hst] at h
    subst h; simp at hw
  | succ fuel ih =>
    intro st ws h w hw
    by_cases hst : st < total
    · by_cases he : total ≤ min (st + maxT) total
      · simp [windowsLoop, hst, he] at h
        subst h
        simp at hw
        subst hw; rfl
      · simp only [windowsLoop, if_pos hst, if_neg he, Option.map_eq_some'] at h
        obtain ⟨ws', hws', rfl⟩ := h
        rcases List.mem_cons.mp hw with hw | hw
        · subst hw; rfl
        · exact ih _ _ hws' w hw
    · simp [windowsLoop, hst] at h
      subst h; simp at hw

/-- Sample extracted pages used to evaluate the pipeline concretely. -/
def samplePages : List Page := [⟨1, "ab"⟩]

/-- The chunk list `chunk_text` produces on `samplePages` with
`max_tokens = 20`, `overlap_tokens = 5` under `charCodec`. -/
def sampleChunks : List TextChunk :=
  [⟨"[Début Page 1]\nab", [1], 20, ""⟩, ⟨"]\nab\n[Fin Page 1]", [1], 17, ""⟩]

/-- C1: with `0 ≤ overlap_tokens < max_tokens`, every chunk produced by
`chunk_text` has `token_count ≤ max_tokens`, and every chunk other than the
last has `token_count` exactly `max_tokens` (only the final chunk may be
smaller). -/
theorem chunk_text_token_bounds (c : Codec) (pages : List Page)
    (maxT ovl : Nat) (l : List TextChunk) (hov : ovl < maxT)
    (h : chunk_text c pages maxT ovl = some l) :
    ∀ i (hi : i < l.length),
      (l.get ⟨i, hi⟩).token_count ≤ maxT ∧
        (i + 1 < l.length → (l.get ⟨i, hi⟩).token_count = maxT) := by
  rw [chunk_text_eq_windows] at h
  obtain ⟨ws, hws, hmap⟩ := Option.map_eq_some'.mp h
  subst hmap
  intro i hi
  have hi' : i < ws.length := by simpa using hi
  have hget : ∀ (j : Nat) (hj : j < (ws.map
      (windowChunk c (tokensOf c pages) (spansOf pages))).length)
      (hj' : j < ws.length),
      (ws.map (windowChunk c (tokensOf c pages) (spansOf pages))).get ⟨j, hj⟩ =
        windowChunk c (tokensOf c pages) (spansOf pages) (ws.get ⟨j, hj'⟩) := by
    intro j hj hj'
    simp [List.get_eq_getElem]
  have hmem := windowsLoop_mem (tokensOf c pages).length maxT ovl (by omega)
    _ _ _ hws (ws.get ⟨i, hi'⟩) (ws.get_mem i hi')
  have hcount := windowChunk_token_count c (tokensOf c pages) (spansOf pages)
    (ws.get ⟨i, hi'⟩) hmem.2.1
  constructor
  · rw [hget i hi hi', hcount]
    omega
  · intro hi1
    have hi1' : i + 1 < ws.length := by simpa using hi1
    have hchain := windowsLoop_chain (tokensOf c pages).length maxT ovl _ _ _ hws
    rw [List.chain'_iff_get] at hchain
    have hrel := hchain i (by omega)
    rw [hget i hi hi', hcount]
    omega

/-- C1 witness: concrete run with two windows of 20 and 17 tokens. -/
theorem chunk_text_token_bounds_witness :
    (5 : Nat) < 20 ∧
      ∀ i (hi : i < sampleChunks.length),
        (sampleChunks.get ⟨i, hi⟩).token_count ≤ 20 ∧
          (i + 1 < sampleChunks.length →
            (sampleChunks.get ⟨i, hi⟩).token_count = 20) :=
  ⟨by decide,
    chunk_text_token_bounds charCodec samplePages 20 5 sampleChunks
      (by decide) (by decide)⟩

/-- C2: when `chunk_text` runs with `0 ≤ overlap_tokens < max_tokens`, the
produced chunks are exactly the window chunks, and for every pair of
consecutive windows the last `overlap_tokens` tokens of the earlier window's
token slice equal the first `overlap_tokens` tokens of the later window's
token slice. -/
theorem chunk_text_overlap_law (c : Codec) (pages : List Page)
    (maxT ovl : Nat) (ws : List (Nat × Nat)) (hov : ovl < maxT)
    (hws : windowsLoop (tokensOf c pages).length maxT ovl
      (tokensOf c pages).length 0 = some ws) :
    chunk_text c pages maxT ovl =
      some (ws.map (windowChunk c (tokensOf c pages) (spansOf pages))) ∧
    ∀ i (hi : i + 1 < ws.length),
      (tokSlice (tokensOf c pages) (ws.get ⟨i, by omega⟩).1
          (ws.get ⟨i, by omega⟩).2).drop
          (((ws.get ⟨i, by omega⟩).2 - (ws.get ⟨i, by omega⟩).1) - ovl) =
        (tokSlice (tokensOf c pages) (ws.get ⟨i + 1, hi⟩).1
          (ws.get ⟨i + 1, hi⟩).2).take ovl := by
  constructor
  · rw [chunk_text_eq_windows, hws]
    rfl
  · intro i hi
    have hi0 : i < ws.length := by omega
    have hchain := windowsLoop_chain (tokensOf c pages).length maxT ovl _ _ _ hws
    rw [List.chain'_iff_get] at hchain
    have hrel := hchain i (by omega)
    have hshape := windowsLoop_mem_shape (tokensOf c pages).length maxT ovl
      _ _ _ hws (ws.get ⟨i + 1, hi⟩) (ws.get_mem (i + 1) hi)
    set w1 := ws.get ⟨i, hi0⟩ with hw1
    set w2 := ws.get ⟨i + 1, hi⟩ with hw2
    obtain ⟨hre, hrlt, hrnext⟩ := hrel
    have hle1 : ovl ≤ w1.2 - w1.1 := by omega
    have hle2 : ovl ≤ w2.2 - w2.1 := by
      rw [hshape]
      omega
    rw [tokSlice, tokSlice, List.drop_take, List.drop_drop, List.take_take]
    have h1 : w1.1 + ((w1.2 - w1.1) - ovl) = w2.1 := by omega
    have h2 : (w1.2 - w1.1) - ((w1.2 - w1.1) - ovl) = ovl := by omega
    have h3 : min ovl (w2.2 - w2.1) = ovl := by omega
    rw [h1, h2, h3]

/-- C2 witness: concrete run with windows `(0, 20)` and `(15, 32)`. -/
theorem chunk_text_overlap_law_witness :
    chunk_text charCodec samplePages 20 5 =
      some ([(0, 20), (15, 32)].map (windowChunk charCodec
        (tokensOf charCodec samplePages) (spansOf samplePages))) ∧
    ∀ i (hi : i + 1 < ([(0, 20), (15, 32)] : List (Nat × Nat)).length),
      (tokSlice (tokensOf charCodec samplePages)
          (([(0, 20), (15, 32)] : List (Nat × Nat)).get ⟨i, by omega⟩).1
          (([(0, 20), (15, 32)] : List (Nat × Nat)).get ⟨i, by omega⟩).2).drop
          (((([(0, 20), (15, 32)] : List (Nat × Nat)).get ⟨i, by omega⟩).2 -
            (([(0, 20), (15, 32)] : List (Nat × Nat)).get ⟨i, by omega⟩).1) - 5) =
        (tokSlice (tokensOf charCodec samplePages)
          (([(0, 20), (15, 32)] : List (Nat × Nat)).get ⟨i + 1, hi⟩).1
          (([(0, 20), (15, 32)] : List (Nat × Nat)).get ⟨i + 1, hi⟩).2).take 5 :=
  chunk_text_overlap_law charCodec samplePages 20 5 [(0, 20), (15, 32)]
    (by decide) (by decide)

/-- C6: page-aligned chunking emits exactly one chunk per page with
non-empty trimmed text, in input order, with the trimmed page text, the
one-element page list, and `token_count = count(text)`: it is exactly a
filter-then-map of the input pages (no merging, no splitting). -/
theorem split_into_pages_page_aligned (c : Codec) (pages : List Page) :
    split_into_pages c pages =
      (pages.filter (fun pd => pyStrip pd.text ≠ "")).map
        (fun pd => { text := pyStrip pd.text
                     source_pages := [pd.page]
                     token_count := count_tokens c (pyStrip pd.text)
                     source_document := "" }) :=
  split_into_pages_eq c pages

/-- C9: under the precondition `0 ≤ overlap_tokens < max_tokens` the
token-window loop of `chunk_text` terminates (the embedding returns `some`),
and each non-final iteration advances the window start by exactly
`max_tokens - overlap_tokens > 0`. -/
theorem chunk_text_terminates (c : Codec) (pages : List Page)
    (maxT ovl : Nat) (hov : ovl < maxT) :
    (chunk_text c pages maxT ovl).isSome ∧
      ∀ ws, windowsLoop (tokensOf c pages).length maxT ovl
          (tokensOf c pages).length 0 = some ws →
        List.Chain' (fun a b => b.1 = a.1 + (maxT - ovl)) ws := by
  refine ⟨chunk_text_isSome c pages maxT ovl hov, ?_⟩
  intro ws hws
  have hchain := windowsLoop_chain (tokensOf c pages).length maxT ovl _ _ _ hws
  exact hchain.imp (fun hab => by omega)

/-- C9 witness: the loop terminates on a concrete input. -/
theorem chunk_text_terminates_witness :
    (chunk_text charCodec samplePages 20 5).isSome ∧
      ∀ ws, windowsLoop (tokensOf charCodec samplePages).length 20 5
          (tokensOf charCodec samplePages).length 0 = some ws →
        List.Chain' (fun a b => b.1 = a.1 + (20 - 5)) ws :=
  chunk_text_terminates charCodec samplePages 20 5 (by decide)

/-- C3: every chunk produced by `chunk_text` is the chunk of some token
window `[s, e)`, and a page number is in its `source_pages` iff some
recorded page span strictly overlaps the chunk's computed character span
(`char_start` = length of the decoded token prefix, `char_end` = that plus
the length of the decoded untrimmed window); pages are collected in
first-seen order, deduplicated. -/
theorem chunk_text_page_attribution (c : Codec) (pages : List Page)
    (maxT ovl : Nat) (l : List TextChunk)
    (h : chunk_text c pages maxT ovl = some l) :
    ∀ ch ∈ l, ∃ s e,
      ch = windowChunk c (tokensOf c pages) (spansOf pages) (s, e) ∧
      (∀ p, p ∈ ch.source_pages ↔
        ∃ sp ∈ spansOf pages, sp.page = p ∧
          max ((c.decode ((tokensOf c pages).take s)).length) sp.start <
            min ((c.decode ((tokensOf c pages).take s)).length +
              (c.decode (tokSlice (tokensOf c pages) s e)).length) sp.stop) ∧
      ch.source_pages = firstSeenDedup (((spansOf pages).filter
        (fun sp =>
          max ((c.decode ((tokensOf c pages).take s)).length) sp.start <
            min ((c.decode ((tokensOf c pages).take s)).length +
              (c.decode (tokSlice (tokensOf c pages) s e)).length) sp.stop)).map
        PageSpan.page) ∧
      ch.source_pages.Nodup := by
  rw [chunk_text_eq_windows] at h
  obtain ⟨ws, hws, hmap⟩ := Option.map_eq_some'.mp h
  subst hmap
  intro ch hch
  obtain ⟨w, hw, rfl⟩ := List.mem_map.mp hch
  refine ⟨w.1, w.2, rfl, ?_, ?_, ?_⟩
  · intro p
    exact sourcePagesFor_mem (spansOf pages) _ _ p
  · exact sourcePagesFor_firstSeen (spansOf pages) _ _
  · exact sourcePagesFor_nodup (spansOf pages) _ _

/-- C3 witness: the attribution property applied to the first chunk of a
concrete run. -/
theorem chunk_text_page_attribution_witness :
    ∃ s e,
      sampleChunks.headD default =
        windowChunk charCodec (tokensOf charCodec samplePages)
          (spansOf samplePages) (s, e) ∧
      (∀ p, p ∈ (sampleChunks.headD default).source_pages ↔
        ∃ sp ∈ spansOf samplePages, sp.page = p ∧
          max ((charCodec.decode ((tokensOf charCodec samplePages).take s)).length)
              sp.start <
            min ((charCodec.decode ((tokensOf charCodec samplePages).take s)).length +
              (charCodec.decode (tokSlice (tokensOf charCodec samplePages) s e)).length)
              sp.stop) ∧
      (sampleChunks.headD default).source_pages =
        firstSeenDedup (((spansOf samplePages).filter
          (fun sp =>
            max ((charCodec.decode ((tokensOf charCodec samplePages).take s)).length)
                sp.start <
              min ((charCodec.decode ((tokensOf charCodec samplePages).take s)).length +
                (charCodec.decode (tokSlice (tokensOf charCodec samplePages) s e)).length)
                sp.stop)).map PageSpan.page) ∧
      (sampleChunks.headD default).source_pages.Nodup :=
  chunk_text_page_attribution charCodec samplePages 20 5 sampleChunks
    (by decide) (sampleChunks.headD default) (by decide)

lemma charCodec_decode_data :
    ∀ (l : List Char), charCodec.decode (l.map Char.toNat) = String.mk l := by
  intro l
  induction l with
  | nil => rfl
  | cons ch rest ih =>
    show String.singleton (Char.ofNat ch.toNat) ++
      charCodec.decode (rest.map Char.toNat) = String.mk (ch :: rest)
    rw [Char.ofNat_toNat, ih]
    apply String.ext
    simp [String.singleton]

/-- `charCodec` is round-trip stable: decoding an encoding gives back the
original string. -/
lemma charCodec_roundtrip : ∀ s, charCodec.decode (charCodec.encode s) = s := by
  intro s
  cases s with
  | mk data => exact charCodec_decode_data data

/-- C10: in token-window mode with `0 ≤ overlap_tokens < max_tokens` and a
round-trip-stable codec, every input page is attributed to at least one
produced chunk: page spans are non-empty and the windows' character spans
jointly cover the concatenated text. -/
theorem chunk_text_covers_pages (c : Codec) (pages : List Page)
    (maxT ovl : Nat) (hrt : ∀ s, c.decode (c.encode s) = s)
    (hov : ovl < maxT) :
    ∃ l, chunk_text c pages maxT ovl = some l ∧
      ∀ pd ∈ pages, ∃ ch ∈ l, pd.page ∈ ch.source_pages := by
  have hws' := windowsLoop_isSome (tokensOf c pages).length maxT ovl hov
    (tokensOf c pages).length 0 (by omega)
  obtain ⟨ws, hws⟩ := Option.isSome_iff_exists.mp hws'
  refine ⟨ws.map (windowChunk c (tokensOf c pages) (spansOf pages)),
    by rw [chunk_text_eq_windows, hws]; rfl, ?_⟩
  intro pd hpd
  obtain ⟨sp, hsp, hpage, hacc, hlt, hstop⟩ := spansOf_cover pages "" pd hpd
  have hft : c.decode (tokensOf c pages) = fullTextOf pages := hrt _
  have htot : (c.decode ((tokensOf c pages).take (tokensOf c pages).length)).length =
      (fullTextOf pages).length := by
    rw [List.take_length, hft]
  have hstop' : sp.stop ≤ (fullTextOf pages).length := hstop
  have htne : tokensOf c pages ≠ [] := by
    intro h0
    have hempty : fullTextOf pages = "" := by
      rw [← hft, h0]; rfl
    rw [hempty] at hstop'
    have : (("" : String)).length = 0 := rfl
    omega
  have h0lt : 0 < (tokensOf c pages).length := List.length_pos.mpr htne
  have hx2 : sp.start <
      (c.decode ((tokensOf c pages).take (tokensOf c pages).length)).length := by
    rw [htot]; omega
  obtain ⟨w, hwmem, hw1, hw2⟩ := windowsLoop_coverage c (tokensOf c pages)
    maxT ovl (tokensOf c pages).length 0 ws hws h0lt sp.start
    (by simp [Codec.decode]) hx2
  refine ⟨windowChunk c (tokensOf c pages) (spansOf pages) w,
    List.mem_map_of_mem _ hwmem, ?_⟩
  have hmem := windowsLoop_mem (tokensOf c pages).length maxT ovl (by omega)
    _ _ _ hws w hwmem
  have hce : (c.decode ((tokensOf c pages).take w.1)).length +
      (c.decode (tokSlice (tokensOf c pages) w.1 w.2)).length =
      (c.decode ((tokensOf c pages).take w.2)).length := by
    rw [decode_take_split c (tokensOf c pages) (le_of_lt hmem.1),
      String.length_append]
  show pd.page ∈ sourcePagesFor (spansOf pages)
    ((c.decode ((tokensOf c pages).take w.1)).length)
    ((c.decode ((tokensOf c pages).take w.1)).length +
      (c.decode (tokSlice (tokensOf c pages) w.1 w.2)).length)
  rw [sourcePagesFor_mem]
  exact ⟨sp, hsp, hpage, by omega⟩

/-- C10 witness: on a concrete input every page appears in some chunk. -/
theorem chunk_text_covers_pages_witness :
    ∃ l, chunk_text charCodec samplePages 20 5 = some l ∧
      ∀ pd ∈ samplePages, ∃ ch ∈ l, pd.page ∈ ch.source_pages :=
  chunk_text_covers_pages charCodec samplePages 20 5
    charCodec_roundtrip (by decide)

/-! ### Aggregation lemmas -/

lemma extract_and_chunk_multiple_ok (c : Codec) (mode : String)
    (maxT ovl : Nat) :
    ∀ docs : List (String × List Page),
      (∀ d ∈ docs, ∃ l, extract_and_chunk c d.2 mode maxT ovl =
        ChunkResult.ok l) →
      extract_and_chunk_multiple c docs mode maxT ovl =
        ChunkResult.ok (docs.flatMap (fun d =>
          (okChunks (extract_and_chunk c d.2 mode maxT ovl)).map
            (fun ch => { ch with source_document := d.1 }))) := by
  intro docs
  induction docs with
  | nil => intro _; rfl
  | cons d rest ih =>
    intro h
    obtain ⟨ld, hld⟩ := h d (by simp)
    have hrest := ih (fun d' hd' => h d' (by simp [hd']))
    simp only [extract_and_chunk_multiple, hld, hrest, List.flatMap_cons]
    rfl

lemma statsTotals_eq (c : Codec) :
    ∀ docs : List (String × List Page),
      (statsTotals c docs).1 =
        (docs.map (fun d => (get_text_stats c d.2).num_pages)).sum ∧
      (statsTotals c docs).2.1 =
        (docs.map (fun d => (get_text_stats c d.2).total_chars)).sum ∧
      (statsTotals c docs).2.2 =
        (docs.map (fun d => (get_text_stats c d.2).total_tokens)).sum := by
  intro docs
  induction docs with
  | nil => exact ⟨rfl, rfl, rfl⟩
  | cons d rest ih =>
    simp [statsTotals, ih.1, ih.2.1, ih.2.2]

/-- Sample pair of input documents. -/
def sampleDocs : List (String × List Page) :=
  [("f1", [⟨1, "ab"⟩]), ("f2", [⟨1, "xyz"⟩])]

/-- C7: the multi-document aggregator concatenates each file's chunk list in
input order, tagging every chunk's `source_document` with its file's name;
the aggregate statistics are the per-file sums, `num_documents` is the file
count, and `per_document` lists each file's statistics with its name. -/
theorem multi_document_aggregation (c : Codec)
    (docs : List (String × List Page)) (mode : String) (maxT ovl : Nat)
    (h : ∀ d ∈ docs, ∃ l, extract_and_chunk c d.2 mode maxT ovl =
      ChunkResult.ok l) :
    extract_and_chunk_multiple c docs mode maxT ovl =
      ChunkResult.ok (docs.flatMap (fun d =>
        (okChunks (extract_and_chunk c d.2 mode maxT ovl)).map
          (fun ch => { ch with source_document := d.1 }))) ∧
    (get_text_stats_multiple c docs).num_pages =
      (docs.map (fun d => (get_text_stats c d.2).num_pages)).sum ∧
    (get_text_stats_multiple c docs).total_chars =
      (docs.map (fun d => (get_text_stats c d.2).total_chars)).sum ∧
    (get_text_stats_multiple c docs).total_tokens =
      (docs.map (fun d => (get_text_stats c d.2).total_tokens)).sum ∧
    (get_text_stats_multiple c docs).num_documents = docs.length ∧
    (get_text_stats_multiple c docs).per_document =
      docs.map (fun d => ⟨get_text_stats c d.2, d.1⟩) := by
  refine ⟨extract_and_chunk_multiple_ok c mode maxT ovl docs h,
    (statsTotals_eq c docs).1, (statsTotals_eq c docs).2.1,
    (statsTotals_eq c docs).2.2, rfl, rfl⟩

/-- C7 witness: two concrete files in page-aligned mode. -/
theorem multi_document_aggregation_witness :
    extract_and_chunk_multiple charCodec sampleDocs "page" 10 0 =
      ChunkResult.ok (sampleDocs.flatMap (fun d =>
        (okChunks (extract_and_chunk charCodec d.2 "page" 10 0)).map
          (fun ch => { ch with source_document := d.1 }))) ∧
    (get_text_stats_multiple charCodec sampleDocs).num_pages =
      (sampleDocs.map (fun d => (get_text_stats charCodec d.2).num_pages)).sum ∧
    (get_text_stats_multiple charCodec sampleDocs).total_chars =
      (sampleDocs.map (fun d => (get_text_stats charCodec d.2).total_chars)).sum ∧
    (get_text_stats_multiple charCodec sampleDocs).total_tokens =
      (sampleDocs.map (fun d => (get_text_stats charCodec d.2).total_tokens)).sum ∧
    (get_text_stats_multiple charCodec sampleDocs).num_documents =
      sampleDocs.length ∧
    (get_text_stats_multiple charCodec sampleDocs).per_document =
      sampleDocs.map (fun d => ⟨get_text_stats charCodec d.2, d.1⟩) :=
  multi_document_aggregation charCodec sampleDocs "page" 10 0 (by
    intro d hd
    simp only [sampleDocs, List.mem_cons, List.not_mem_nil, or_false] at hd
    rcases hd with rfl | rfl
    · exact ⟨[⟨"ab", [1], 2, ""⟩], by decide⟩
    · exact ⟨[⟨"xyz", [1], 3, ""⟩], by decide⟩)

/-- C8: when extraction yields zero pages, or the concatenated text encodes
to zero tokens (for a codec that encodes only the empty string to the empty
token list), `extract_and_chunk` returns the empty chunk list in both modes
and reports no error. -/
theorem extract_and_chunk_empty_input (c : Codec) (pages : List Page)
    (mode : String) (maxT ovl : Nat)
    (hmode : mode = "page" ∨ mode = "token")
    (hempty : pages = [] ∨
      ((∀ s, c.encode s = [] → s = "") ∧ c.encode (fullTextOf pages) = [])) :
    extract_and_chunk c pages mode maxT ovl = ChunkResult.ok [] := by
  rcases hempty with rfl | ⟨henc, htok⟩
  · simp [extract_and_chunk]
  · have hft : fullTextOf pages = "" := henc _ htok
    have hpages : pages = [] := by
      by_contra hne
      exact fullTextOf_ne_empty pages hne hft
    subst hpages
    simp [extract_and_chunk]

/-- C8 witness: a stream extracting to zero pages yields `[]`. -/
theorem extract_and_chunk_empty_input_witness :
    extract_and_chunk charCodec [] "page" 10 0 = ChunkResult.ok [] :=
  extract_and_chunk_empty_input charCodec [] "page" 10 0 (Or.inl rfl)
    (Or.inl rfl)

lemma windowsLoop_single (total maxT ovl fuel : Nat) (h0 : 0 < total)
    (hfit : total ≤ maxT) (hfuel : 0 < fuel) :
    windowsLoop total maxT ovl fuel 0 = some [(0, total)] := by
  cases fuel with
  | zero => omega
  | succ n =>
    have he : total ≤ min (0 + maxT) total := by omega
    have heq : min maxT total = total := by omega
    simp [windowsLoop, h0, he, heq, hfit]

/-- C4 (amended): `extract_and_chunk` validates only the mode string, and
only after a non-empty extraction: an unknown mode raises
`ValueError(f"Mode inconnu : {mode}")` when at least one page was extracted,
while an empty extraction returns `[]` before any validation; the
configuration `overlap_tokens ≥ max_tokens` is never validated — token mode
proceeds without error, returning a single chunk when the document fits in
one window and failing to terminate when it does not. -/
theorem extract_and_chunk_validation (c : Codec) (pages : List Page)
    (mode : String) (maxT ovl : Nat) :
    (pages ≠ [] → mode ≠ "page" → mode ≠ "token" →
      extract_and_chunk c pages mode maxT ovl =
        ChunkResult.modeError ("Mode inconnu : " ++ mode)) ∧
    (pages = [] →
      extract_and_chunk c pages mode maxT ovl = ChunkResult.ok []) ∧
    (pages ≠ [] → maxT ≤ ovl → maxT < (tokensOf c pages).length →
      extract_and_chunk c pages "token" maxT ovl = ChunkResult.diverges) ∧
    (pages ≠ [] → 0 < (tokensOf c pages).length →
      (tokensOf c pages).length ≤ maxT →
      extract_and_chunk c pages "token" maxT ovl =
        ChunkResult.ok [windowChunk c (tokensOf c pages) (spansOf pages)
          (0, (tokensOf c pages).length)]) := by
  refine ⟨?_, ?_, ?_, ?_⟩
  · intro hne hm1 hm2
    simp [extract_and_chunk, hne, hm1, hm2]
  · intro h
    subst h
    simp [extract_and_chunk]
  · intro hne hle hlt
    have hnone := windowsLoop_none_of_no_advance (tokensOf c pages).length
      maxT ovl hle hlt (tokensOf c pages).length
    have hct : chunk_text c pages maxT ovl = none := by
      rw [chunk_text_eq_windows, hnone]
      rfl
    simp [extract_and_chunk, hne, hct]
  · intro hne h0 hfit
    have hws := windowsLoop_single (tokensOf c pages).length maxT ovl
      (tokensOf c pages).length h0 hfit h0
    have hct : chunk_text c pages maxT ovl =
        some [windowChunk c (tokensOf c pages) (spansOf pages)
          (0, (tokensOf c pages).length)] := by
      rw [chunk_text_eq_windows, hws]
      rfl
    simp [extract_and_chunk, hne, hct]

/-- C4 amended-claim witness: the unknown-mode error on a concrete input. -/
theorem extract_and_chunk_validation_witness :
    extract_and_chunk charCodec [⟨1, "a"⟩] "bogus" 10 0 =
      ChunkResult.modeError ("Mode inconnu : " ++ "bogus") :=
  (extract_and_chunk_validation charCodec [⟨1, "a"⟩] "bogus" 10 0).1
    (by decide) (by decide) (by decide)

/-- C4 counterexample: the invalid configuration
`overlap_tokens = 50 ≥ max_tokens = 40` is not reported: `extract_and_chunk`
returns a chunk list on a document fitting one window; and an unknown mode
with an empty extraction also returns `[]` instead of an error. -/
theorem extract_and_chunk_validation_counterexample :
    (40 : Nat) ≤ 50 ∧
      extract_and_chunk charCodec [⟨1, "a"⟩] "token" 40 50 =
        ChunkResult.ok [⟨"[Début Page 1]\na\n[Fin Page 1]", [1], 31, ""⟩] ∧
      extract_and_chunk charCodec [] "bogus" 10 0 = ChunkResult.ok [] := by
  exact ⟨by omega, by decide, by decide⟩

/-- C5 counterexample: with `max_tokens = 1`, `overlap_tokens = 0` (a valid
configuration), the first chunk `chunk_text` produces decodes to a newline,
so its stored trimmed text is empty and its `token_count` is `1`, while the
token count of its stored text is `0`. -/
theorem chunk_invariant_counterexample :
    (((chunk_text charCodec samplePages 1 0).getD []).headD default).text = "" ∧
    (((chunk_text charCodec samplePages 1 0).getD []).headD
      default).token_count = 1 ∧
    count_tokens charCodec
      (((chunk_text charCodec samplePages 1 0).getD []).headD default).text
      = 0 := by
  exact ⟨by decide, by decide, by decide⟩

/-- C5 (amended): every chunk of `split_into_pages` satisfies the data-model
invariant (text non-empty after trimming, `token_count = count(text)`);
every chunk of `chunk_text` has `token_count` equal to the length of its
window's token slice, but its stored trimmed text may be empty and its
`token_count` may differ from the token count of the stored text. -/
theorem chunk_invariant_amended (c : Codec) (pages : List Page)
    (maxT ovl : Nat) (l : List TextChunk) :
    (∀ ch ∈ split_into_pages c pages,
      pyStrip ch.text ≠ "" ∧ ch.token_count = count_tokens c ch.text) ∧
    (chunk_text c pages maxT ovl = some l →
      ∀ ch ∈ l, ∃ s e,
        ch = windowChunk c (tokensOf c pages) (spansOf pages) (s, e) ∧
        ch.token_count = (tokSlice (tokensOf c pages) s e).length) := by
  constructor
  · intro ch hch
    obtain ⟨heq, hne, hcount⟩ := split_into_pages_invariant c pages ch hch
    exact ⟨by rw [heq]; exact hne, hcount⟩
  · intro h ch hch
    rw [chunk_text_eq_windows] at h
    obtain ⟨ws, hws, hmap⟩ := Option.map_eq_some'.mp h
    subst hmap
    obtain ⟨w, hw, rfl⟩ := List.mem_map.mp hch
    exact ⟨w.1, w.2, rfl, rfl⟩

/-- C5 amended-claim witness on a concrete run of both chunkers. -/
theorem chunk_invariant_amended_witness :
    (∀ ch ∈ split_into_pages charCodec samplePages,
      pyStrip ch.text ≠ "" ∧
        ch.token_count = count_tokens charCodec ch.text) ∧
    (∀ ch ∈ sampleChunks, ∃ s e,
      ch = windowChunk charCodec (tokensOf charCodec samplePages)
        (spansOf samplePages) (s, e) ∧
      ch.token_count = (tokSlice (tokensOf charCodec samplePages) s e).length) :=
  ⟨(chunk_invariant_amended charCodec samplePages 20 5 sampleChunks).1,
    (chunk_invariant_amended charCodec samplePages 20 5 sampleChunks).2
      (by decide)⟩
